import Mathlib

/-!
Verification of the banbot `utils/banio.go` messaging core: framing codec,
message dispatch, broadcast gating, the server KV store with TTL, the
client getVal protocol, reconnect handling and the network lock API.

Bytes are modelled as `List Nat` (each element < 256).  Go maps keyed by
strings are modelled as association lists with Go-map get/set/delete
semantics.  Wall-clock times (`btime.TimeMS`) are passed explicitly as
`Int` parameters.
-/

namespace Banio

/-! ## Variable-length natural encoding

Used by the executable model of the external JSON codec (`sonic.Marshal` /
`utils.Unmarshal`): a little-endian base-128 varint with continuation bit. -/

def natEnc (n : Nat) : List Nat :=
  if h : n < 128 then [n]
  else (n % 128 + 128) :: natEnc (n / 128)
termination_by n
decreasing_by
  exact Nat.div_lt_self (by omega) (by omega)

def natDec : List Nat → Option (Nat × List Nat)
  | [] => none
  | b :: bs =>
    if b < 128 then some (b, bs)
    else
      match natDec bs with
      | some (m, rest) => some (b - 128 + 128 * m, rest)
      | none => none

theorem natDec_natEnc (n : Nat) (rest : List Nat) :
    natDec (natEnc n ++ rest) = some (n, rest) := by
  induction n using Nat.strong_induction_on with
  | _ n ih =>
    by_cases h : n < 128
    · rw [natEnc]
      simp [h, natDec]
    · rw [natEnc]
      simp only [h, dite_false, List.cons_append]
      have hrec := ih (n / 128) (Nat.div_lt_self (by omega) (by omega))
      simp only [natDec, hrec]
      have hb : ¬ (n % 128 + 128 < 128) := by omega
      simp only [hb, if_false]
      congr 2
      have := Nat.mod_add_div n 128
      omega

/-! ## Integer, character and string encodings (JSON codec model layers) -/

def intEnc (n : Int) : List Nat :=
  if 0 ≤ n then 0 :: natEnc n.toNat else 1 :: natEnc (-n).toNat

def intDec : List Nat → Option (Int × List Nat)
  | 0 :: bs =>
    match natDec bs with
    | some (m, rest) => some ((m : Int), rest)
    | none => none
  | 1 :: bs =>
    match natDec bs with
    | some (m, rest) => some (-(m : Int), rest)
    | none => none
  | _ => none

theorem intDec_intEnc (n : Int) (rest : List Nat) :
    intDec (intEnc n ++ rest) = some (n, rest) := by
  by_cases h : 0 ≤ n
  · simp only [intEnc, h, if_true, List.cons_append, intDec, natDec_natEnc]
    congr 2
    exact Int.toNat_of_nonneg h
  · simp only [intEnc, h, if_false, List.cons_append, intDec, natDec_natEnc]
    congr 2
    have : ((-n).toNat : Int) = -n := Int.toNat_of_nonneg (by omega)
    omega

def charsEnc : List Char → List Nat
  | [] => []
  | c :: cs => natEnc c.toNat ++ charsEnc cs

def charsDec : Nat → List Nat → Option (List Char × List Nat)
  | 0, bs => some ([], bs)
  | k + 1, bs =>
    match natDec bs with
    | some (m, r1) =>
      match charsDec k r1 with
      | some (cs, r2) => some (Char.ofNat m :: cs, r2)
      | none => none
    | none => none

theorem charsDec_charsEnc (cs : List Char) (rest : List Nat) :
    charsDec cs.length (charsEnc cs ++ rest) = some (cs, rest) := by
  induction cs with
  | nil => simp [charsEnc, charsDec]
  | cons c cs ih =>
    simp only [charsEnc, List.length_cons, List.append_assoc, charsDec,
      natDec_natEnc, ih, Char.ofNat_toNat]

def strEnc (s : String) : List Nat :=
  natEnc s.data.length ++ charsEnc s.data

def strDec (bs : List Nat) : Option (String × List Nat) :=
  match natDec bs with
  | some (n, r1) =>
    match charsDec n r1 with
    | some (cs, r2) => some (String.mk cs, r2)
    | none => none
  | none => none

theorem strDec_strEnc (s : String) (rest : List Nat) :
    strDec (strEnc s ++ rest) = some (s, rest) := by
  simp only [strEnc, List.append_assoc, strDec, natDec_natEnc, charsDec_charsEnc]

/-! ## JSON values

The envelope's `Data interface{}` field holds an arbitrary JSON-serializable
value; we model it as a JSON tree (numbers as integers). -/

inductive Json where
  | null : Json
  | bool : Bool → Json
  | num : Int → Json
  | str : String → Json
  | arr : List Json → Json
  | obj : List (String × Json) → Json
deriving Repr

/-! Executable model of the external JSON codec (`sonic.Marshal` and
`utils.Unmarshal`): a deterministic tag-length-value serialization of the
JSON tree with an exact inverse, capturing the library contract
`unmarshal (marshal v) = v`. -/

mutual
def jsonEnc : Json → List Nat
  | .null => [0]
  | .bool b => [1, if b then 1 else 0]
  | .num n => 2 :: intEnc n
  | .str s => 3 :: strEnc s
  | .arr items => 4 :: (natEnc items.length ++ jsonListEnc items)
  | .obj fields => 5 :: (natEnc fields.length ++ jsonFieldsEnc fields)

def jsonListEnc : List Json → List Nat
  | [] => []
  | j :: rest => jsonEnc j ++ jsonListEnc rest

def jsonFieldsEnc : List (String × Json) → List Nat
  | [] => []
  | (k, v) :: rest => strEnc k ++ jsonEnc v ++ jsonFieldsEnc rest
end

/-! Fuel needed by the decoder to reconstruct a value (its nesting depth). -/
mutual
def jfuel : Json → Nat
  | .null => 1
  | .bool _ => 1
  | .num _ => 1
  | .str _ => 1
  | .arr items => jlfuel items + 1
  | .obj fields => jffuel fields + 1

def jlfuel : List Json → Nat
  | [] => 0
  | j :: rest => max (jfuel j) (jlfuel rest)

def jffuel : List (String × Json) → Nat
  | [] => 0
  | (_, v) :: rest => max (jfuel v) (jffuel rest)
end

mutual
def jsonDec : Nat → List Nat → Option (Json × List Nat)
  | 0, _ => none
  | _ + 1, [] => none
  | f + 1, t :: bs =>
    if t = 0 then some (.null, bs)
    else if t = 1 then
      match bs with
      | b :: rest =>
        if b = 1 then some (.bool true, rest)
        else if b = 0 then some (.bool false, rest)
        else none
      | [] => none
    else if t = 2 then
      match intDec bs with
      | some (n, rest) => some (.num n, rest)
      | none => none
    else if t = 3 then
      match strDec bs with
      | some (s, rest) => some (.str s, rest)
      | none => none
    else if t = 4 then
      match natDec bs with
      | some (n, r1) =>
        match jsonDecList f n r1 with
        | some (items, r2) => some (.arr items, r2)
        | none => none
      | none => none
    else if t = 5 then
      match natDec bs with
      | some (n, r1) =>
        match jsonDecFields f n r1 with
        | some (fields, r2) => some (.obj fields, r2)
        | none => none
      | none => none
    else none
  termination_by f _ => (f, 0)

def jsonDecList : Nat → Nat → List Nat → Option (List Json × List Nat)
  | _, 0, bs => some ([], bs)
  | f, n + 1, bs =>
    match jsonDec f bs with
    | some (j, r1) =>
      match jsonDecList f n r1 with
      | some (js, r2) => some (j :: js, r2)
      | none => none
    | none => none
  termination_by f n _ => (f, n + 1)

def jsonDecFields : Nat → Nat → List Nat → Option (List (String × Json) × List Nat)
  | _, 0, bs => some ([], bs)
  | f, n + 1, bs =>
    match strDec bs with
    | some (k, r0) =>
      match jsonDec f r0 with
      | some (v, r1) =>
        match jsonDecFields f n r1 with
        | some (fs, r2) => some ((k, v) :: fs, r2)
        | none => none
      | none => none
    | none => none
  termination_by f n _ => (f, n + 1)
end

theorem jsonDecList_round (f : Nat) (items : List Json) (rest : List Nat)
    (ih : ∀ j ∈ items, ∀ f' rest', jfuel j ≤ f' →
      jsonDec f' (jsonEnc j ++ rest') = some (j, rest'))
    (hf : jlfuel items ≤ f) :
    jsonDecList f items.length (jsonListEnc items ++ rest) = some (items, rest) := by
  induction items with
  | nil => simp [jsonListEnc, jsonDecList]
  | cons j tl ihtl =>
    have hj : jfuel j ≤ f := le_trans (le_max_left _ _) hf
    have htl : jlfuel tl ≤ f := le_trans (le_max_right _ _) hf
    have h1 := ih j (List.mem_cons_self j tl) f (jsonListEnc tl ++ rest) hj
    simp only [jsonListEnc, List.length_cons, List.append_assoc, jsonDecList, h1]
    rw [ihtl (fun j' hj' => ih j' (List.mem_cons_of_mem _ hj')) htl]

theorem jsonDecFields_round (f : Nat) (fields : List (String × Json)) (rest : List Nat)
    (ih : ∀ kv ∈ fields, ∀ f' rest', jfuel kv.2 ≤ f' →
      jsonDec f' (jsonEnc kv.2 ++ rest') = some (kv.2, rest'))
    (hf : jffuel fields ≤ f) :
    jsonDecFields f fields.length (jsonFieldsEnc fields ++ rest) = some (fields, rest) := by
  induction fields with
  | nil => simp [jsonFieldsEnc, jsonDecFields]
  | cons kv tl ihtl =>
    obtain ⟨k, v⟩ := kv
    have hj : jfuel v ≤ f := le_trans (le_max_left _ _) (by simpa [jffuel] using hf)
    have htl : jffuel tl ≤ f := le_trans (le_max_right _ _) (by simpa [jffuel] using hf)
    have h1 := ih (k, v) (List.mem_cons_self _ tl) f (jsonFieldsEnc tl ++ rest) hj
    simp only [jsonFieldsEnc, List.length_cons, List.append_assoc, jsonDecFields,
      strDec_strEnc, h1]
    rw [ihtl (fun kv' hkv' => ih kv' (List.mem_cons_of_mem _ hkv')) htl]

theorem jsonDec_jsonEnc : ∀ (j : Json) (f : Nat) (rest : List Nat), jfuel j ≤ f →
    jsonDec f (jsonEnc j ++ rest) = some (j, rest)
  | .null, f, rest, hf => by
    obtain ⟨f', rfl⟩ : ∃ f', f = f' + 1 := ⟨f - 1, by simp [jfuel] at hf; omega⟩
    simp only [jsonEnc, List.cons_append, List.nil_append]
    rw [jsonDec.eq_def]
    norm_num
  | .bool b, f, rest, hf => by
    obtain ⟨f', rfl⟩ : ∃ f', f = f' + 1 := ⟨f - 1, by simp [jfuel] at hf; omega⟩
    simp only [jsonEnc, List.cons_append, List.nil_append]
    rw [jsonDec.eq_def]
    cases b <;> norm_num
  | .num n, f, rest, hf => by
    obtain ⟨f', rfl⟩ : ∃ f', f = f' + 1 := ⟨f - 1, by simp [jfuel] at hf; omega⟩
    simp only [jsonEnc, List.cons_append]
    rw [jsonDec.eq_def]
    norm_num [intDec_intEnc]
  | .str s, f, rest, hf => by
    obtain ⟨f', rfl⟩ : ∃ f', f = f' + 1 := ⟨f - 1, by simp [jfuel] at hf; omega⟩
    simp only [jsonEnc, List.cons_append]
    rw [jsonDec.eq_def]
    norm_num [strDec_strEnc]
  | .arr items, f, rest, hf => by
    obtain ⟨f', rfl⟩ : ∃ f', f = f' + 1 := ⟨f - 1, by simp [jfuel] at hf; omega⟩
    have ih : ∀ j ∈ items, ∀ f'' rest', jfuel j ≤ f'' →
        jsonDec f'' (jsonEnc j ++ rest') = some (j, rest') :=
      fun j hj => jsonDec_jsonEnc j
    have hfl : jlfuel items ≤ f' := by simp [jfuel] at hf; omega
    simp only [jsonEnc, List.cons_append, List.append_assoc]
    rw [jsonDec.eq_def]
    norm_num [natDec_natEnc, jsonDecList_round f' items rest ih hfl]
  | .obj fields, f, rest, hf => by
    obtain ⟨f', rfl⟩ : ∃ f', f = f' + 1 := ⟨f - 1, by simp [jfuel] at hf; omega⟩
    have ih : ∀ kv ∈ fields, ∀ f'' rest', jfuel kv.2 ≤ f'' →
        jsonDec f'' (jsonEnc kv.2 ++ rest') = some (kv.2, rest') :=
      fun kv hkv => jsonDec_jsonEnc kv.2
    have hfl : jffuel fields ≤ f' := by simp [jfuel] at hf; omega
    simp only [jsonEnc, List.cons_append, List.append_assoc]
    rw [jsonDec.eq_def]
    norm_num [natDec_natEnc, jsonDecFields_round f' fields rest ih hfl]
termination_by j _ _ _ => sizeOf j
decreasing_by
  · have := List.sizeOf_lt_of_mem hj
    simp only [Json.arr.sizeOf_spec]
    omega
  · have h1 := List.sizeOf_lt_of_mem hkv
    obtain ⟨k, v⟩ := kv
    simp only [Json.obj.sizeOf_spec, Prod.mk.sizeOf_spec] at *
    omega

theorem jlfuel_le (items : List Json)
    (ih : ∀ j ∈ items, jfuel j ≤ (jsonEnc j).length) :
    jlfuel items ≤ (jsonListEnc items).length := by
  induction items with
  | nil => simp [jlfuel, jsonListEnc]
  | cons j tl ihtl =>
    have h1 := ih j (List.mem_cons_self j tl)
    have h2 := ihtl (fun j' hj' => ih j' (List.mem_cons_of_mem _ hj'))
    simp only [jlfuel, jsonListEnc, List.length_append]
    omega

theorem jffuel_le (fields : List (String × Json))
    (ih : ∀ kv ∈ fields, jfuel kv.2 ≤ (jsonEnc kv.2).length) :
    jffuel fields ≤ (jsonFieldsEnc fields).length := by
  induction fields with
  | nil => simp [jffuel, jsonFieldsEnc]
  | cons kv tl ihtl =>
    obtain ⟨k, v⟩ := kv
    have h1 := ih (k, v) (List.mem_cons_self _ tl)
    have h2 := ihtl (fun kv' hkv' => ih kv' (List.mem_cons_of_mem _ hkv'))
    simp only [jffuel, jsonFieldsEnc, List.length_append] at *
    omega

theorem jfuel_le_length : ∀ j : Json, jfuel j ≤ (jsonEnc j).length
  | .null => by simp [jfuel, jsonEnc]
  | .bool b => by simp [jfuel, jsonEnc]
  | .num n => by simp [jfuel, jsonEnc]
  | .str s => by simp [jfuel, jsonEnc]
  | .arr items => by
    have ih : ∀ j ∈ items, jfuel j ≤ (jsonEnc j).length :=
      fun j hj => jfuel_le_length j
    have := jlfuel_le items ih
    simp only [jfuel, jsonEnc, List.length_cons, List.length_append]
    omega
  | .obj fields => by
    have ih : ∀ kv ∈ fields, jfuel kv.2 ≤ (jsonEnc kv.2).length :=
      fun kv hkv => jfuel_le_length kv.2
    have := jffuel_le fields ih
    simp only [jfuel, jsonEnc, List.length_cons, List.length_append]
    omega
termination_by j => sizeOf j
decreasing_by
  · have := List.sizeOf_lt_of_mem hj
    simp only [Json.arr.sizeOf_spec]
    omega
  · have h1 := List.sizeOf_lt_of_mem hkv
    obtain ⟨k, v⟩ := kv
    simp only [Json.obj.sizeOf_spec, Prod.mk.sizeOf_spec] at *
    omega

/-! ## The message envelope

`IOMsg` is the envelope `{Action, Data}` of `banio.go`; `msgEnc`/`msgDec`
model `sonic.Marshal` / `utils.Unmarshal` applied to it. -/

structure IOMsg where
  Action : String
  Data : Json
deriving Repr

def msgEnc (m : IOMsg) : List Nat :=
  strEnc m.Action ++ jsonEnc m.Data

def msgDec (bs : List Nat) : Option IOMsg :=
  match strDec bs with
  | some (a, r1) =>
    match jsonDec (r1.length + 1) r1 with
    | some (d, r2) => if r2.isEmpty then some ⟨a, d⟩ else none
    | none => none
  | none => none

theorem msgDec_msgEnc (m : IOMsg) : msgDec (msgEnc m) = some m := by
  obtain ⟨a, d⟩ := m
  have h1 : strDec (strEnc a ++ jsonEnc d) = some (a, jsonEnc d) := by
    have := strDec_strEnc a (jsonEnc d)
    simpa using this
  have h2 : jsonDec ((jsonEnc d).length + 1) (jsonEnc d ++ []) = some (d, []) :=
    jsonDec_jsonEnc d _ [] (le_trans (jfuel_le_length d) (by omega))
  rw [List.append_nil] at h2
  simp [msgDec, msgEnc, h1, h2]

/-! ## zlib codec model

Executable model of the external zlib library (`compress/zlib` writer and
reader) used by `compress`/`deCompress` in `banio.go`: RFC 1950 framing in
stored-block (level 0) form — the 2-byte header `0x78 0x9C`, DEFLATE
stored blocks (final-bit byte, LEN, NLEN = 0xFFFF − LEN, raw bytes) and the
Adler-32 trailer, with the exact-inverse decoder checking each field. -/

def adler32 (data : List Nat) : Nat :=
  let p := data.foldl
    (fun (st : Nat × Nat) b =>
      (((st.1 + b) % 65521), ((st.2 + ((st.1 + b) % 65521)) % 65521)))
    (1, 0)
  p.2 * 65536 + p.1

def adlerBytes (data : List Nat) : List Nat :=
  let a := adler32 data
  [a / 16777216 % 256, a / 65536 % 256, a / 256 % 256, a % 256]

def compressBlocks (data : List Nat) : List Nat :=
  if data.length ≤ 65535 then
    1 :: data.length % 256 :: data.length / 256 ::
      (65535 - data.length) % 256 :: (65535 - data.length) / 256 :: data
  else
    0 :: 255 :: 255 :: 0 :: 0 ::
      (data.take 65535 ++ compressBlocks (data.drop 65535))
termination_by data.length
decreasing_by
  simp only [List.length_drop]
  omega

def parseBlocks : List Nat → Option (List Nat × List Nat)
  | b :: l0 :: l1 :: n0 :: n1 :: rest =>
    let len := l0 + 256 * l1
    if n0 + 256 * n1 ≠ 65535 - len then none
    else if rest.length < len then none
    else if b = 1 then some (rest.take len, rest.drop len)
    else if b = 0 then
      match parseBlocks (rest.drop len) with
      | some (more, rest3) => some (rest.take len ++ more, rest3)
      | none => none
    else none
  | _ => none
termination_by bs => bs.length
decreasing_by
  simp only [List.length_cons, List.length_drop]
  omega

def compress (data : List Nat) : List Nat :=
  120 :: 156 :: (compressBlocks data ++ adlerBytes data)

def deCompress (bs : List Nat) : Option (List Nat) :=
  match bs with
  | 120 :: 156 :: body =>
    match parseBlocks body with
    | some (payload, tail) =>
      if tail = adlerBytes payload then some payload else none
    | none => none
  | _ => none

theorem take_append_len {α : Type} (l1 l2 : List α) {n : Nat} (h : l1.length = n) :
    (l1 ++ l2).take n = l1 := by
  subst h
  exact List.take_left l1 l2

theorem drop_append_len {α : Type} (l1 l2 : List α) {n : Nat} (h : l1.length = n) :
    (l1 ++ l2).drop n = l2 := by
  subst h
  exact List.drop_left l1 l2

theorem parseBlocks_compressBlocks (data tail : List Nat) :
    parseBlocks (compressBlocks data ++ tail) = some (data, tail) := by
  induction data using compressBlocks.induct with
  | case1 data h =>
    rw [compressBlocks, if_pos h]
    rw [parseBlocks.eq_def]
    simp only [List.cons_append]
    have hn : (65535 - data.length) % 256 + 256 * ((65535 - data.length) / 256) =
        65535 - (data.length % 256 + 256 * (data.length / 256)) := by omega
    have hl : data.length % 256 + 256 * (data.length / 256) = data.length := by omega
    rw [hl] at hn ⊢
    simp only [hn, ne_eq, not_true_eq_false, if_false, ite_false]
    have hlen : ¬ ((data ++ tail).length < data.length) := by
      simp [List.length_append]
    simp only [hlen, if_false, ite_false, if_pos rfl]
    rw [List.take_left, List.drop_left]
    simp
  | case2 data h ih =>
    rw [compressBlocks, if_neg h]
    rw [parseBlocks.eq_def]
    simp only [List.cons_append, List.append_assoc]
    have hta : (data.take 65535).length = 65535 := by
      simp only [List.length_take]
      omega
    have hta' : (data.take 65535).length = 255 + 256 * 255 := by
      rw [hta]
    have hlen : ¬ ((data.take 65535 ++ (compressBlocks (data.drop 65535) ++ tail)).length
        < 255 + 256 * 255) := by
      simp only [List.length_append, hta]
      omega
    rw [if_neg (by norm_num), if_neg hlen, if_neg (by norm_num : ¬ (0 : Nat) = 1),
      if_pos trivial, drop_append_len _ _ hta', take_append_len _ _ hta', ih]
    simp [List.take_append_drop]

theorem deCompress_compress (data : List Nat) :
    deCompress (compress data) = some data := by
  simp [compress, deCompress, parseBlocks_compressBlocks]

/-! ## Frame codec composition

`writeMsgBytes` is the payload produced by `BanConn.WriteMsg` (lines 69-81):
`sonic.Marshal` of the envelope followed by `compress`.  `readMsgParse` is the
inverse pipeline of `BanConn.ReadMsg` (lines 106-121): `deCompress` followed
by `utils.Unmarshal`. -/

def writeMsgBytes (m : IOMsg) : List Nat :=
  compress (msgEnc m)

def readMsgParse (bs : List Nat) : Option IOMsg :=
  match deCompress bs with
  | some data => msgDec data
  | none => none

/-- C1: Frame codec round-trip — for every JSON-serializable envelope E,
decoding the bytes produced by encoding E (JSON-marshal then zlib-compress,
reversed by zlib-decompress then JSON-unmarshal) yields an envelope equal
to E. -/
theorem frame_codec_roundtrip (m : IOMsg) :
    readMsgParse (writeMsgBytes m) = some m := by
  simp [writeMsgBytes, readMsgParse, deCompress_compress, msgDec_msgEnc]

/-! ## Go map model

Association lists with Go-map semantics: lookup of the unique binding,
insert-or-replace, delete. -/

def mGet {α : Type} (m : List (String × α)) (k : String) : Option α :=
  match m.find? (fun e => e.1 = k) with
  | some e => some e.2
  | none => none

def mSet {α : Type} : List (String × α) → String → α → List (String × α)
  | [], k, v => [(k, v)]
  | (k', v') :: rest, k, v =>
    if k' = k then (k, v) :: rest else (k', v') :: mSet rest k v

def mDel {α : Type} : List (String × α) → String → List (String × α)
  | [], _ => []
  | (k', v') :: rest, k =>
    if k' = k then mDel rest k else (k', v') :: mDel rest k

theorem mGet_mSet_self {α : Type} (m : List (String × α)) (k : String) (v : α) :
    mGet (mSet m k v) k = some v := by
  induction m with
  | nil => simp [mSet, mGet, List.find?]
  | cons e rest ih =>
    obtain ⟨k', v'⟩ := e
    by_cases h : k' = k
    · simp [mSet, h, mGet, List.find?]
    · simp only [mSet, h, if_false, ite_false]
      simp only [mGet, List.find?] at ih ⊢
      simp [h, ih]

theorem mGet_mDel_self {α : Type} (m : List (String × α)) (k : String) :
    mGet (mDel m k) k = none := by
  induction m with
  | nil => simp [mDel, mGet, List.find?]
  | cons e rest ih =>
    obtain ⟨k', v'⟩ := e
    by_cases h : k' = k
    · simpa [mDel, h] using ih
    · simp only [mDel, h, if_false, ite_false]
      simp only [mGet, List.find?] at ih ⊢
      simp [h, ih]

/-! ## Server KV store (`ServerIO.SetVal` / `ServerIO.GetVal`, lines 366-391)

`data` is `ServerIO.Data`, `dataExp` is `ServerIO.DataExp` (13-digit ms
expiry timestamps).  `btime.TimeMS()` is passed as the `now` argument,
values as `Option Json` (`none` is Go `nil`). -/

structure SrvState where
  data : List (String × Json)
  dataExp : List (String × Int)

/-- `ServerIO.SetVal`: a nil value deletes the key from `Data` (and nothing
else); otherwise the value is stored and, when `ExpireSecs > 0`, the expiry
`now + ExpireSecs*1000` is recorded. -/
def setVal (now : Int) (st : SrvState) (key : String) (val : Option Json)
    (expireSecs : Int) : SrvState :=
  match val with
  | none => { st with data := mDel st.data key }
  | some v =>
    let d := mSet st.data key v
    if expireSecs > 0 then
      { data := d, dataExp := mSet st.dataExp key (now + expireSecs * 1000) }
    else
      { st with data := d }

/-- `ServerIO.GetVal`: absent key gives nil; an expired key is lazily removed
from both maps and gives nil; otherwise the stored value is returned. -/
def getVal (now : Int) (st : SrvState) (key : String) : Option Json × SrvState :=
  match mGet st.data key with
  | none => (none, st)
  | some v =>
    match mGet st.dataExp key with
    | some exp =>
      if now ≥ exp then
        (none, { data := mDel st.data key, dataExp := mDel st.dataExp key })
      else
        (some v, st)
    | none => (some v, st)

/-- C4: KV TTL — after `set(k, v, expireSecs=s)` with `s > 0` at time `t`,
a `get(k)` at `t' < t + s*1000` returns `v` (leaving the store unchanged, so
every such earlier read returns `v`), and a `get(k)` at `t' ≥ t + s*1000`
returns nil, the first such get removing both the value entry and the
expiration entry. -/
theorem kv_ttl (st : SrvState) (k : String) (v : Json) (s t t' : Int)
    (hs : 0 < s) :
    let st' := setVal t st k (some v) s
    (t' < t + s * 1000 → getVal t' st' k = (some v, st')) ∧
    (t' ≥ t + s * 1000 →
      (getVal t' st' k).1 = none ∧
      mGet (getVal t' st' k).2.data k = none ∧
      mGet (getVal t' st' k).2.dataExp k = none) := by
  intro st'
  have hdata : mGet st'.data k = some v := by
    simp [st', setVal, hs, mGet_mSet_self]
  have hexp : mGet st'.dataExp k = some (t + s * 1000) := by
    simp [st', setVal, hs, mGet_mSet_self]
  constructor
  · intro hlt
    have : ¬ (t' ≥ t + s * 1000) := by omega
    simp [getVal, hdata, hexp, this]
  · intro hge
    simp [getVal, hdata, hexp, hge, mGet_mDel_self]

/-- Witness for C4 at concrete inputs. -/
theorem kv_ttl_witness :
    (0 : Int) < 2 ∧
    ((1005 : Int) < 1000 + 2 * 1000 →
      getVal 1005 (setVal 1000 ⟨[], []⟩ "k" (some (.num 7)) 2) "k" =
        (some (.num 7), setVal 1000 ⟨[], []⟩ "k" (some (.num 7)) 2)) ∧
    ((3000 : Int) ≥ 1000 + 2 * 1000 →
      (getVal 3000 (setVal 1000 ⟨[], []⟩ "k" (some (.num 7)) 2) "k").1 = none) := by
  refine ⟨by norm_num, ?_, ?_⟩
  · exact (kv_ttl ⟨[], []⟩ "k" (.num 7) 2 1000 1005 (by norm_num)).1
  · intro h
    exact ((kv_ttl ⟨[], []⟩ "k" (.num 7) 2 1000 3000 (by norm_num)).2 h).1

/-- C5 counterexample: `SetVal` with a nil value (lines 366-371) only deletes
from `Data` and returns; the claim that the key's expiration entry is also
removed fails on a state that has one. -/
theorem kv_delete_nil_counterexample :
    (setVal 0 ⟨[("k", Json.num 1)], [("k", 5)]⟩ "k" none 0).dataExp = [("k", 5)] ∧
    mGet (setVal 0 ⟨[("k", Json.num 1)], [("k", 5)]⟩ "k" none 0).dataExp "k" = some 5 ∧
    some (5 : Int) ≠ none := by
  refine ⟨rfl, ?_, by simp⟩
  rfl

/-- C5 (amended): for every key and store state, `set(k, nil, _)` removes the
key's value entry — the key's expiration entry is left in place — and a
following `get(k)` returns nil. -/
theorem kv_delete_nil (now now' : Int) (st : SrvState) (k : String) (e : Int) :
    let st' := setVal now st k none e
    mGet st'.data k = none ∧ st'.dataExp = st.dataExp ∧
    (getVal now' st' k).1 = none := by
  intro st'
  have hd : mGet st'.data k = none := by
    simp [st', setVal, mGet_mDel_self]
  refine ⟨hd, rfl, ?_⟩
  simp [getVal, hd]

/-! ## Handler dispatch (`BanConn.RunForever`, lines 165-184)

Each decoded message's action is scanned against `Listens`; the first entry
(in the map's iteration order) whose key is a prefix of the action handles
the message and the scan breaks; if none matches the message is only
logged.  Go map iteration order is unspecified, so an iteration order is an
arbitrary permutation of the registered entries.  Handlers are modelled by
identifiers. -/

/-- `strings.HasPrefix(action, pre)` on UTF-8 strings, char-list form. -/
def hasPre (pre s : String) : Bool :=
  pre.data.isPrefixOf s.data

def dispatchMsg (listens : List (String × Nat)) (action : String) : Option Nat :=
  match listens with
  | [] => none
  | e :: rest =>
    if hasPre e.1 action then some e.2 else dispatchMsg rest action

/-- Dispatch rule in the words of the claim (not of the code): the handler
registered under the longest matching prefix wins, ties going to the
first-registered entry. -/
def specLongestDispatch (registered : List (String × Nat)) (action : String) :
    Option Nat :=
  (registered.foldl
    (fun best e =>
      if hasPre e.1 action then
        match best with
        | none => some e
        | some b => if b.1.length < e.1.length then some e else some b
      else best)
    none).map Prod.snd

/-- C2 counterexample: with handlers registered for `onGet` then `on`, the
iteration order putting `on` first is a permutation of the registration
order, and the loop of `RunForever` then invokes the `on` handler for action
`onGetVal`, not the longest-prefix (`onGet`) handler the claim requires. -/
theorem dispatch_longest_counterexample :
    List.Perm [("on", 1), ("onGet", 0)] [("onGet", 0), ("on", 1)] ∧
    dispatchMsg [("on", 1), ("onGet", 0)] "onGetVal" = some 1 ∧
    specLongestDispatch [("onGet", 0), ("on", 1)] "onGetVal" = some 0 ∧
    (1 : Nat) ≠ 0 := by
  refine ⟨List.Perm.swap _ _ _, ?_, ?_, by omega⟩
  · decide
  · decide

/-- C2 (amended): for every received envelope, the handler invoked is the
first one in the handler table's iteration order (unspecified for a Go map)
whose registered prefix is a prefix of the action; if no registered prefix
matches, no handler runs (the message is only logged). -/
theorem dispatch_first_match (listens : List (String × Nat)) (action : String) :
    dispatchMsg listens action =
      (listens.find? (fun e => hasPre e.1 action)).map Prod.snd ∧
    (dispatchMsg listens action = none ↔
      ∀ e ∈ listens, ¬ hasPre e.1 action = true) := by
  constructor
  · induction listens with
    | nil => simp [dispatchMsg]
    | cons e rest ih =>
      by_cases h : hasPre e.1 action
      · simp [dispatchMsg, List.find?_cons_of_pos, h]
      · simp only [Bool.not_eq_true] at h
        simp [dispatchMsg, List.find?_cons_of_neg, h, ih]
  · induction listens with
    | nil => simp [dispatchMsg]
    | cons e rest ih =>
      by_cases h : hasPre e.1 action
      · simp [dispatchMsg, h]
      · simp only [Bool.not_eq_true] at h
        simp [dispatchMsg, h, ih]

/-! ## Server broadcast (`ServerIO.Broadcast`, lines 393-427)

A connection is modelled by whether its socket is non-nil (`hasConn`), its
`Ready` flag, its subscription tags and an identifier.  `Broadcast` walks
the roster once: closed connections are dropped from the roster, and the
message is sent (one task per recipient) to exactly the remaining
connections subscribed to the message's action. -/

structure ConnM where
  id : Nat
  hasConn : Bool
  ready : Bool
  tags : List String
deriving Repr, DecidableEq

/-- `BanConn.IsClosed` (lines 61-63): `Conn == nil || !Ready`. -/
def isClosed (c : ConnM) : Bool :=
  !c.hasConn || !c.ready

/-- `BanConn.HasTag` (lines 64-67): membership in the `Tags` map. -/
def hasTag (c : ConnM) (tag : String) : Bool :=
  c.tags.contains tag

/-- The roster compaction and recipient selection loop of `Broadcast`
(lines 394-405): first component is the compacted roster (`allConns`),
second the recipients (`curConns`). -/
def broadcastRun (conns : List ConnM) (action : String) :
    List ConnM × List ConnM :=
  conns.foldl
    (fun acc conn =>
      if isClosed conn then acc
      else (acc.1 ++ [conn],
            if hasTag conn action then acc.2 ++ [conn] else acc.2))
    ([], [])

theorem broadcastRun_acc (conns : List ConnM) (action : String)
    (a b : List ConnM) :
    conns.foldl
      (fun acc conn =>
        if isClosed conn then acc
        else (acc.1 ++ [conn],
              if hasTag conn action then acc.2 ++ [conn] else acc.2))
      (a, b) =
    (a ++ conns.filter (fun c => !(isClosed c)),
     b ++ (conns.filter (fun c => !(isClosed c))).filter
        (fun c => hasTag c action)) := by
  induction conns generalizing a b with
  | nil => simp
  | cons c rest ih =>
    by_cases hc : isClosed c
    · simp [List.foldl_cons, hc, ih, List.filter_cons]
    · by_cases ht : hasTag c action
      · simp [List.foldl_cons, hc, ht, ih, List.filter_cons]
      · simp [List.foldl_cons, hc, ht, ih, List.filter_cons]

/-- C3: Subscription gating — `Broadcast(msg)` selects connection `C` for a
send iff `C.IsClosed()` is false and `msg.Action` is among `C`'s tags, and
the connections observed closed are exactly the ones dropped from the
roster during the broadcast. -/
theorem broadcast_gating (conns : List ConnM) (action : String) :
    (∀ c, c ∈ (broadcastRun conns action).2 ↔
      c ∈ conns ∧ isClosed c = false ∧ hasTag c action = true) ∧
    (broadcastRun conns action).1 = conns.filter (fun c => !(isClosed c)) := by
  have h := broadcastRun_acc conns action [] []
  constructor
  · intro c
    simp [broadcastRun, h, List.mem_filter]
    tauto
  · simp [broadcastRun, h]

/-! ## Network lock release (`DelNetLock`, lines 600-613)

The in-process server path of `GetServerData`/`SetServerData` (lines
549-569 with `banServer != nil`) reads and writes the server KV store
directly; `SetServerData` is called with a zero `ExpireSecs`.
`mapstructure.Decode(val, &valInt)` leaves `valInt = 0` unless the stored
value decodes as an integer. -/

def decodeLockInt : Option Json → Int
  | some (.num n) => n
  | _ => 0

def delNetLock (now : Int) (st : SrvState) (key : String) (lockVal : Int) :
    SrvState :=
  let lockKey := "lock_" ++ key
  let r := getVal now st lockKey
  let valInt := decodeLockInt r.1
  if valInt = lockVal then setVal now r.2 lockKey none 0 else r.2

/-- C7: Lock release — with a well-formed stored nonce (an integer lock
entry with no TTL), a release with a mismatched nonce leaves the whole
store unchanged (the lock remains held; the Go code logs and returns a nil
error), while a matching nonce deletes the lock key's value entry. -/
theorem lock_release_match (now : Int) (st : SrvState) (key : String)
    (v lockVal : Int)
    (hstored : mGet st.data ("lock_" ++ key) = some (.num v))
    (hnoexp : mGet st.dataExp ("lock_" ++ key) = none) :
    (v ≠ lockVal → delNetLock now st key lockVal = st) ∧
    (v = lockVal →
      mGet (delNetLock now st key lockVal).data ("lock_" ++ key) = none ∧
      (delNetLock now st key lockVal).dataExp = st.dataExp) := by
  constructor
  · intro hne
    simp [delNetLock, getVal, hstored, hnoexp, decodeLockInt, hne]
  · intro heq
    subst heq
    simp [delNetLock, getVal, hstored, hnoexp, decodeLockInt, setVal,
      mGet_mDel_self]

/-- Witness for C7 at concrete inputs. -/
theorem lock_release_match_witness :
    delNetLock 0 ⟨[("lock_job", Json.num 42)], []⟩ "job" 7 =
      ⟨[("lock_job", Json.num 42)], []⟩ ∧
    mGet (delNetLock 0 ⟨[("lock_job", Json.num 42)], []⟩ "job" 42).data
      ("lock_" ++ "job") = none := by
  constructor
  · exact (lock_release_match 0 ⟨[("lock_job", Json.num 42)], []⟩ "job" 42 7
      (by rfl) (by rfl)).1 (by omega)
  · exact ((lock_release_match 0 ⟨[("lock_job", Json.num 42)], []⟩ "job" 42 42
      (by rfl) (by rfl)).2 rfl).1

/-! ## Reconnection (`BanConn.connect`, lines 186-209)

State: `Ready`, whether `Conn` is non-nil, and `RefreshMS`.  `now` is
`btime.TimeMS()` at the freshness check, `now2` its value after the dial;
`dialOk` says whether `DoConnect` left a non-nil socket; `hasReinit`
whether a `ReInitConn` hook is installed.  The trace records the
externally visible recovery actions. -/

structure ConnSt where
  ready : Bool
  hasConn : Bool
  refreshMS : Int
deriving Repr, DecidableEq

inductive RecStep where
  | closeSock
  | sleep3
  | dialHook
  | reinitHook
deriving Repr, DecidableEq

/-- `BanConn.connect(lock)`: only when `lock` is true does it check
`Ready && TimeMS()-RefreshMS < 2000` and skip; otherwise it clears
readiness, closes and nulls any socket, sleeps 3s, dials, stamps
`RefreshMS`, and on success runs the reinit hook and sets readiness. -/
def connectRun (lock : Bool) (st : ConnSt) (now : Int) (dialOk : Bool)
    (now2 : Int) (hasReinit : Bool) : ConnSt × List RecStep :=
  if lock ∧ st.ready = true ∧ now - st.refreshMS < 2000 then (st, [])
  else
    let closeTr : List RecStep := if st.hasConn then [.closeSock] else []
    let tr := closeTr ++ [.sleep3, .dialHook] ++
      (if dialOk ∧ hasReinit then [.reinitHook] else [])
    ({ ready := dialOk, hasConn := dialOk, refreshMS := now2 }, tr)

/-- Write-observed `ErrNetConnect` recovery (lines 87-95): `Write` sets
`Ready = false` and then calls `connect(false)`. -/
def writeTriggerRecover (st : ConnSt) (now : Int) (dialOk : Bool)
    (now2 : Int) (hasReinit : Bool) : ConnSt × List RecStep :=
  connectRun false { st with ready := false } now dialOk now2 hasReinit

/-- Read-observed `ErrNetConnect` recovery (lines 126-132): `Read` calls
`connect(true)` without touching `Ready`. -/
def readTriggerRecover (st : ConnSt) (now : Int) (dialOk : Bool)
    (now2 : Int) (hasReinit : Bool) : ConnSt × List RecStep :=
  connectRun true st now dialOk now2 hasReinit

/-- C8 counterexample: a write-observed `ErrNetConnect` on a connection
that is ready and was refreshed less than 2000 ms ago still closes the
socket and re-dials — `connect(false)` never performs the freshness
check, so the claim's skip does not happen for write-triggered recovery. -/
theorem reconnect_skip_counterexample :
    (⟨true, true, 0⟩ : ConnSt).ready = true ∧
    ((1000 : Int) - (⟨true, true, 0⟩ : ConnSt).refreshMS < 2000) = True ∧
    (writeTriggerRecover ⟨true, true, 0⟩ 1000 true 1500 false).2 =
      [.closeSock, .sleep3, .dialHook] ∧
    RecStep.closeSock ∈ (writeTriggerRecover ⟨true, true, 0⟩ 1000 true 1500 false).2 ∧
    RecStep.dialHook ∈ (writeTriggerRecover ⟨true, true, 0⟩ 1000 true 1500 false).2 := by
  refine ⟨rfl, by norm_num, by decide, by decide, by decide⟩

/-- C8 (amended): the freshness skip applies only to read-initiated
recovery — `connect(true)` with readiness true and `now − refreshMS <
2000` returns with no action and the state unchanged — while
write-initiated recovery (`connect(false)`) always proceeds to re-dial. -/
theorem reconnect_skip (st : ConnSt) (now : Int) (dialOk : Bool)
    (now2 : Int) (hasReinit : Bool) :
    (st.ready = true → now - st.refreshMS < 2000 →
      readTriggerRecover st now dialOk now2 hasReinit = (st, [])) ∧
    RecStep.dialHook ∈ (writeTriggerRecover st now dialOk now2 hasReinit).2 := by
  constructor
  · intro hr hf
    simp [readTriggerRecover, connectRun, hr, hf]
  · simp only [writeTriggerRecover, connectRun, false_and, if_false, ite_false]
    by_cases hc : st.hasConn <;> by_cases hd : dialOk ∧ hasReinit <;>
      simp [hc, hd]

/-- Witness for C8 at concrete inputs. -/
theorem reconnect_skip_witness :
    readTriggerRecover ⟨true, true, 0⟩ 1000 true 1500 false =
      (⟨true, true, 0⟩, []) :=
  (reconnect_skip ⟨true, true, 0⟩ 1000 true 1500 false).1 rfl (by norm_num)

/-! ## Write paths and the write mutex

`BanConn.Write` (lines 83-104) emits the 4-byte little-endian length and
then the payload on the raw socket.  `WriteMsg` (lines 69-81) encodes and
then performs that emission holding `c.m`; the per-recipient tasks of
`Broadcast` (lines 417-424) call `c.Write(compressed)` directly. -/

/-- `binary.LittleEndian.PutUint32` of the payload length. -/
def putUint32LE (n : Nat) : List Nat :=
  [n % 256, n / 256 % 256, n / 65536 % 256, n / 16777216 % 256]

inductive WStep where
  | lockMutex
  | unlockMutex
  | sockWrite (bs : List Nat)
deriving Repr, DecidableEq

/-- The two socket writes of a successful `BanConn.Write(data)`. -/
def writeFrameTrace (data : List Nat) : List WStep :=
  [.sockWrite (putUint32LE data.length), .sockWrite data]

/-- `BanConn.WriteMsg`: marshal and compress, then lock `c.m`, emit the
frame, unlock. -/
def writeMsgTrace (m : IOMsg) : List WStep :=
  [WStep.lockMutex] ++ writeFrameTrace (writeMsgBytes m) ++ [WStep.unlockMutex]

/-- One per-recipient send of `ServerIO.Broadcast`: the spawned task calls
`c.Write(compressed)` directly, with no mutex operations. -/
def broadcastSendTrace (m : IOMsg) : List WStep :=
  writeFrameTrace (writeMsgBytes m)

/-- `true` iff every socket write in the trace happens while the (single)
connection mutex is held. -/
def writesLocked (tr : List WStep) : Bool :=
  (tr.foldl
    (fun (st : Bool × Bool) step =>
      match step with
      | .lockMutex => (true, st.2)
      | .unlockMutex => (false, st.2)
      | .sockWrite _ => (st.1, st.2 && st.1))
    (false, true)).2

/-- C9 counterexample: the per-recipient send performed by `Broadcast`
emits the length and payload with no mutex acquisition at all, so the
claim that every frame emission — including broadcast sends — happens
under the connection's write mutex is false. -/
theorem broadcast_mutex_counterexample :
    writesLocked (broadcastSendTrace ⟨"a", Json.null⟩) = false ∧
    WStep.sockWrite (writeMsgBytes ⟨"a", Json.null⟩) ∈
      broadcastSendTrace ⟨"a", Json.null⟩ ∧
    WStep.lockMutex ∉ broadcastSendTrace ⟨"a", Json.null⟩ := by
  refine ⟨rfl, ?_, by decide⟩
  simp [broadcastSendTrace, writeFrameTrace]

/-- C9 (amended): frames emitted through `WriteMsg` are written while
holding the connection's write mutex (lock, length write, payload write,
unlock, in that order), but the per-recipient sends of `Broadcast` call
`Write` directly and acquire no mutex. -/
theorem frame_write_mutex (m : IOMsg) :
    writeMsgTrace m =
      [WStep.lockMutex,
       WStep.sockWrite (putUint32LE (writeMsgBytes m).length),
       WStep.sockWrite (writeMsgBytes m),
       WStep.unlockMutex] ∧
    writesLocked (writeMsgTrace m) = true ∧
    writesLocked (broadcastSendTrace m) = false := by
  exact ⟨rfl, rfl, rfl⟩

/-! ## Single write attempt (`BanConn.Write`, lines 83-104)

The classified kinds of the `core`/`errs` error codes referenced by
`banio.go` (the constants live in the repository's `core` package, outside
the provided sources; only their distinctness matters here). -/

inductive ErrKind where
  | netConnect
  | netTimeout
  | netTemporary
  | netReadFail
  | netWriteFail
  | netUnknown
deriving Repr, DecidableEq

inductive WriteOutcome where
  | ok
  | fail (code : ErrKind)
  | reconnectRetry
deriving Repr, DecidableEq

/-- One attempt of `BanConn.Write(data)`, parameterized by the classified
error of each of the two socket writes (`none` = that write succeeded).
Result: the outcome (`reconnectRetry` = the code path that calls
`connect(false)` and retries), the new `Ready` flag, and whether
`connect` was invoked. -/
def banWriteStep (ready : Bool) (hasDoConnect : Bool)
    (lenErr dataErr : Option ErrKind) : WriteOutcome × Bool × Bool :=
  match lenErr with
  | some e =>
    if hasDoConnect ∧ e = .netConnect then (.reconnectRetry, false, true)
    else (.fail e, false, false)
  | none =>
    match dataErr with
    | some _ => (.fail .netWriteFail, false, false)
    | none => (.ok, ready, false)

/-- C10: payload-write failure is terminal — when the 4-byte length write
succeeds and the payload write fails, `Write` clears readiness and
returns `ErrNetWriteFail`, and no reconnection is attempted, for every
error classification (including `netConnect`) and even when a reconnect
hook is present. -/
theorem payload_write_failure_terminal (ready hasDoConnect : Bool)
    (e : ErrKind) :
    banWriteStep ready hasDoConnect none (some e) =
      (.fail .netWriteFail, false, false) := rfl

/-! ## Client `GetVal` (`ClientIO.GetVal`, lines 515-536)

The call is parameterized by whether the initial `WriteMsg` fails and by
the channel outcome: `delivery = some v` means a value arrives on the
waiter channel before the timeout fires, `none` means the timeout fires.
`waits` holds the keys of the client's waiter map. -/

inductive CStep where
  | sendMsg (action : String) (key : String)
  | installWaiter (key : String)
  | waitOn (secs : Int)
  | closeChan
  | removeWaiter (key : String)
deriving Repr, DecidableEq

/-- `ClientIO.GetVal(key, timeout)`: send `("onGetVal", key)` first; then
default the timeout to 120 s when zero, create the channel and install it
under `key`, and select on delivery vs timeout.  Returns (result, error,
final waiter keys, step trace). -/
def clientGetVal (waits : List String) (key : String) (timeout : Int)
    (writeErr : Option ErrKind) (delivery : Option Json) :
    Option Json × Option ErrKind × List String × List CStep :=
  match writeErr with
  | some e => (none, some e, waits, [.sendMsg "onGetVal" key])
  | none =>
    let t := if timeout = 0 then 120 else timeout
    let waits1 := if waits.contains key then waits else waits ++ [key]
    match delivery with
    | some v =>
      (some v, none, waits1,
        [.sendMsg "onGetVal" key, .installWaiter key, .waitOn t])
    | none =>
      (none, none, waits1.filter (fun k => ¬ k = key),
        [.sendMsg "onGetVal" key, .installWaiter key, .waitOn t,
         .closeChan, .removeWaiter key])

/-- The order the claim asserts, in its words: the waiter is installed
strictly before the envelope is sent. -/
def installPrecedesSend (tr : List CStep) (key : String) : Bool :=
  tr.indexOf (CStep.installWaiter key) < tr.indexOf (CStep.sendMsg "onGetVal" key)

/-- C6 counterexample: `GetVal` sends the `("onGetVal", key)` envelope
before installing the waiter channel (the code calls `WriteMsg` first and
only then assigns `c.waits[key]`), so the claimed install-then-send order
fails on a concrete call. -/
theorem client_getval_order_counterexample :
    (clientGetVal [] "k" 0 none none).2.2.2 =
      [.sendMsg "onGetVal" "k", .installWaiter "k", .waitOn 120,
       .closeChan, .removeWaiter "k"] ∧
    installPrecedesSend ((clientGetVal [] "k" 0 none none).2.2.2) "k" = false := by
  constructor
  · rfl
  · decide

/-- C6 (amended): every `GetVal(key, timeout)` call first sends the
`("onGetVal", key)` envelope, then installs a fresh single-value waiter
channel under `key`, then waits bounded by the timeout (default 120 s when
zero); on timeout it closes the channel, removes the waiter and returns
nil with no error; on delivery it returns the delivered value. -/
theorem client_getval_protocol (waits : List String) (key : String)
    (timeout : Int) (delivery : Option Json) :
    let r := clientGetVal waits key timeout none delivery
    let t := if timeout = 0 then 120 else timeout
    r.2.2.2.take 3 = [.sendMsg "onGetVal" key, .installWaiter key, .waitOn t] ∧
    (delivery = none →
      r.1 = none ∧ r.2.1 = none ∧ key ∉ r.2.2.1 ∧
      r.2.2.2 = [.sendMsg "onGetVal" key, .installWaiter key, .waitOn t,
        .closeChan, .removeWaiter key]) ∧
    (∀ v, delivery = some v → r.1 = some v ∧ r.2.1 = none) := by
  refine ⟨?_, ?_, ?_⟩
  · cases delivery <;> simp [clientGetVal]
  · intro hd
    subst hd
    refine ⟨rfl, rfl, ?_, rfl⟩
    simp [clientGetVal, List.mem_filter]
  · intro v hd
    subst hd
    exact ⟨rfl, rfl⟩

/-- Witness for C6 at concrete inputs. -/
theorem client_getval_protocol_witness :
    (clientGetVal [] "k" 0 none (some (Json.num 3))).1 = some (Json.num 3) ∧
    (clientGetVal [] "k" 7 none none).1 = none ∧
    "k" ∉ (clientGetVal [] "k" 7 none none).2.2.1 := by
  refine ⟨((client_getval_protocol [] "k" 0 (some (Json.num 3))).2.2
    (Json.num 3) rfl).1, ?_, ?_⟩
  · exact ((client_getval_protocol [] "k" 7 none).2.1 rfl).1
  · exact ((client_getval_protocol [] "k" 7 none).2.1 rfl).2.2.1

end Banio
